import Mathlib

/-!
Verification development for the inverted-index core of `app.py`
(repository `firmanjabar/inverted_index_app`).

The Python source is shallowly embedded: Python dicts become
insertion-ordered association lists, Python sets become `Finset`s,
text becomes `String`/`List Char`, and code that can raise an
exception returns `Option` (with `none` marking a raised exception).
-/

set_option autoImplicit false

/-! ## Character classes

`app.py` normalizes text with Python regular expressions over `str`
patterns, whose character classes `\d`, `\s` and `\w` are
Unicode-aware.
-/

/-- Code-point ranges (inclusive) of Unicode category Nd, the decimal
digits matched by Python's regex class `\d` on `str` input. -/
def pyDigitRanges : List (Nat × Nat) :=
  [(0x0030, 0x0039), (0x0660, 0x0669), (0x06F0, 0x06F9), (0x07C0, 0x07C9),
   (0x0966, 0x096F), (0x09E6, 0x09EF), (0x0A66, 0x0A6F), (0x0AE6, 0x0AEF),
   (0x0B66, 0x0B6F), (0x0BE6, 0x0BEF), (0x0C66, 0x0C6F), (0x0CE6, 0x0CEF),
   (0x0D66, 0x0D6F), (0x0DE6, 0x0DEF), (0x0E50, 0x0E59), (0x0ED0, 0x0ED9),
   (0x0F20, 0x0F29), (0x1040, 0x1049), (0x1090, 0x1099), (0x17E0, 0x17E9),
   (0x1810, 0x1819), (0x1946, 0x194F), (0x19D0, 0x19D9), (0x1A80, 0x1A89),
   (0x1A90, 0x1A99), (0x1B50, 0x1B59), (0x1BB0, 0x1BB9), (0x1C40, 0x1C49),
   (0x1C50, 0x1C59), (0xA620, 0xA629), (0xA8D0, 0xA8D9), (0xA900, 0xA909),
   (0xA9D0, 0xA9D9), (0xA9F0, 0xA9F9), (0xAA50, 0xAA59), (0xABF0, 0xABF9),
   (0xFF10, 0xFF19), (0x104A0, 0x104A9), (0x10D30, 0x10D39),
   (0x11066, 0x1106F), (0x110F0, 0x110F9), (0x11136, 0x1113F),
   (0x111D0, 0x111D9), (0x112F0, 0x112F9), (0x11450, 0x11459),
   (0x114D0, 0x114D9), (0x11650, 0x11659), (0x116C0, 0x116C9),
   (0x11730, 0x11739), (0x118E0, 0x118E9), (0x11950, 0x11959),
   (0x11C50, 0x11C59), (0x11D50, 0x11D59), (0x11DA0, 0x11DA9),
   (0x16A60, 0x16A69), (0x16B50, 0x16B59), (0x1D7CE, 0x1D7FF),
   (0x1E140, 0x1E149), (0x1E2F0, 0x1E2F9), (0x1E950, 0x1E959),
   (0x1FBF0, 0x1FBF9)]

/-- The character class of Python's regex `\d` (Unicode decimal digits). -/
def isPyDigit (c : Char) : Bool :=
  pyDigitRanges.any (fun r => decide (r.1 ≤ c.toNat ∧ c.toNat ≤ r.2))

/-- An ASCII digit `0`-`9`; used by the specification-side pipeline,
which asks for stripping of runs of ASCII digits. -/
def isAsciiDigit (c : Char) : Bool :=
  decide (48 ≤ c.toNat ∧ c.toNat ≤ 57)

/-- The character class of Python's regex `\s` and of `str.split()` /
`str.strip()` whitespace: tab through carriage return, space, the
C1 separators, NEL, NBSP and the Unicode space separators. -/
def isPySpace (c : Char) : Bool :=
  decide ((9 ≤ c.toNat ∧ c.toNat ≤ 13) ∨ c.toNat = 32 ∨
    (28 ≤ c.toNat ∧ c.toNat ≤ 31) ∨ c.toNat = 0x85 ∨ c.toNat = 0xA0 ∨
    c.toNat = 0x1680 ∨ (0x2000 ≤ c.toNat ∧ c.toNat ≤ 0x200A) ∨
    c.toNat = 0x2028 ∨ c.toNat = 0x2029 ∨ c.toNat = 0x202F ∨
    c.toNat = 0x205F ∨ c.toNat = 0x3000)

/-- The character class of Python's regex `\w`: word characters, i.e.
letters, decimal digits and the underscore.  Python's `\w` is
Unicode-aware; non-ASCII letters are outside the character fragment
modelled here (no claim exercises them), so letters are modelled as
the ASCII letters while digits use the full Unicode class. -/
def isPyWord (c : Char) : Bool :=
  c.isAlpha || isPyDigit c || decide (c = '_')

/-- Python's `str.lower`, modelled on the ASCII fragment
(`Char.toLower` folds exactly the ASCII uppercase letters). -/
def pyLower (c : Char) : Char := c.toLower

/-! ## Regex-substitution and splitting primitives -/

/-- Worker for `stripRuns`: `inRun` records whether the previous
character belonged to a run of the stripped class, so that each
maximal run emits exactly one space. -/
def stripRunsAux (p : Char → Bool) (inRun : Bool) : List Char → List Char
  | [] => []
  | c :: cs =>
    if p c then
      if inRun then stripRunsAux p true cs
      else ' ' :: stripRunsAux p true cs
    else c :: stripRunsAux p false cs

/-- Replace every maximal run of characters satisfying `p` by a single
space: the effect of `re.sub(cls + "+", " ", text)` for a character
class `cls`. -/
def stripRuns (p : Char → Bool) (l : List Char) : List Char :=
  stripRunsAux p false l

/-- Worker for `collapseSpaces`; `inRun` records whether the previous
character was whitespace. -/
def collapseAux (inRun : Bool) : List Char → List Char
  | [] => []
  | c :: cs =>
    if isPySpace c then
      if inRun then collapseAux true cs
      else ' ' :: collapseAux true cs
    else c :: collapseAux false cs

/-- The effect of `re.sub(r"\s+", " ", text)`: every maximal whitespace
run becomes a single space. -/
def collapseSpaces (l : List Char) : List Char :=
  collapseAux false l

/-- Python's `str.strip()`: drop leading and trailing whitespace. -/
def pyStrip (l : List Char) : List Char :=
  ((l.dropWhile isPySpace).reverse.dropWhile isPySpace).reverse

/-- Worker for `pySplit`, accumulating the current word in reverse. -/
def splitAux : List Char → List Char → List (List Char)
  | [], acc => if acc.isEmpty then [] else [acc.reverse]
  | c :: cs, acc =>
    if isPySpace c then
      if acc.isEmpty then splitAux cs []
      else acc.reverse :: splitAux cs []
    else splitAux cs (c :: acc)

/-- Python's `str.split()` with no separator argument: split on runs of
whitespace, discarding empty fragments. -/
def pySplit (l : List Char) : List (List Char) :=
  splitAux l []

/-! ## Stopwords (`STOPWORDS_EN`, `STOPWORDS_ID` in `app.py`)

The Python source holds these as set literals; membership is all that
is ever used, so they are embedded as lists (the literal duplicates in
`STOPWORDS_ID` are kept and are harmless for membership). -/

/-- Built-in English stopword set of `app.py`. -/
def STOPWORDS_EN : List String :=
  ["a", "an", "and", "are", "as", "at", "be", "by", "for", "from", "has",
   "he", "in", "is", "it", "its", "of", "on", "that", "the", "to", "was",
   "were", "will", "with", "this", "these", "those", "or", "not", "but",
   "we", "you", "your", "our"]

/-- Built-in Indonesian stopword set of `app.py`. -/
def STOPWORDS_ID : List String :=
  ["yang", "dan", "di", "ke", "dari", "untuk", "pada", "dengan", "adalah",
   "itu", "ini", "ada", "atau", "tidak", "saya", "kami", "kita", "anda",
   "dia", "mereka", "sebagai", "sebuah", "para", "dalam", "ke", "sebuah",
   "akan", "lagi", "serta", "atau"]

/-! ## Tokenizer (`tokenize` in `app.py`) -/

/-- Embedding of `tokenize(text, lowercase, remove_digits, remove_punct,
lang, use_stop)` from `app.py`: optional lowercasing, digit-run
removal (`re.sub(r"\d+", " ", ...)`), punctuation removal
(`re.sub(r"[^\w\s]", " ", ...)`), whitespace collapsing and stripping,
splitting, and stopword filtering. -/
def tokenize (text : String) (lowercase remove_digits remove_punct : Bool)
    (lang : String) (use_stop : Bool) : List String :=
  let t := text.data
  let t := if lowercase then t.map pyLower else t
  let t := if remove_digits then stripRuns isPyDigit t else t
  let t :=
    if remove_punct then
      t.map (fun c => if !(isPyWord c || isPySpace c) then ' ' else c)
    else t
  let t := pyStrip (collapseSpaces t)
  let tokens := if t.isEmpty then [] else (pySplit t).map String.mk
  if use_stop then
    let sw := if lang = "id" then STOPWORDS_ID else STOPWORDS_EN
    tokens.filter (fun tk => !(decide (tk ∈ sw)))
  else tokens

/-! ## Association lists (Python `dict` / `defaultdict`)

Python dicts preserve insertion order and have unique keys; they are
embedded as ordered association lists.  Lookup returns the first
match; update rewrites the value in place and appends a fresh key at
the end, exactly the observable behaviour of `defaultdict` access. -/

/-- Dict lookup, `d.get(k)`. -/
def alistGet {α β : Type} [DecidableEq α] : List (α × β) → α → Option β
  | [], _ => none
  | (a, b) :: rest, k => if k = a then some b else alistGet rest k

/-- The effect of `d[k] = f(d[k])` on a `defaultdict` with default
value `dflt`: the value at `k` is replaced by `f` of the old value
(or of `dflt` when `k` is new, in which case `k` is appended). -/
def alistUpdate {α β : Type} [DecidableEq α] (l : List (α × β)) (k : α)
    (f : β → β) (dflt : β) : List (α × β) :=
  match l with
  | [] => [(k, f dflt)]
  | (a, b) :: rest =>
    if k = a then (a, f b) :: rest else (a, b) :: alistUpdate rest k f dflt

/-! ## Index data model

A built index has integer document ids; an index loaded back from its
JSON snapshot has string document ids (JSON object keys are strings).
Python is untyped, so both live in the same runtime shape; the key
type is embedded as a sum. -/

/-- A Python posting-dict key: either an `int` doc id (as produced by
`build_inverted_index`) or a `str` doc id (as produced by
`json.loads`). -/
abbrev DocKey : Type := Nat ⊕ String

/-- One term's entry `{"df": ..., "postings": {doc_id: [positions]}}`. -/
structure TermEntry : Type where
  df : Nat
  postings : List (DocKey × List Nat)
deriving DecidableEq

/-- The index value `{"index": {term: entry}, "num_docs": n}`. -/
structure InvIndex : Type where
  index : List (String × TermEntry)
  num_docs : Nat
deriving DecidableEq

/-- Lookup of a term entry, `index["index"].get(term)`. -/
def idxGet (idx : InvIndex) (term : String) : Option TermEntry :=
  alistGet idx.index term

/-! ## Index builder (`build_inverted_index` in `app.py`) -/

/-- One execution of `vocab[term]["postings"][doc_id].append(pos)`:
both dict levels auto-vivify and `pos` is appended at the end. -/
def addPosting (vocab : List (String × List (DocKey × List Nat)))
    (term : String) (d : Nat) (pos : Nat) :
    List (String × List (DocKey × List Nat)) :=
  alistUpdate vocab term
    (fun pm => alistUpdate pm (Sum.inl d) (fun ps => ps ++ [pos]) []) []

/-- The inner loop `for pos, term in enumerate(tokens)` of the builder,
generalized over the starting position so it can be reasoned about by
induction (the source always starts at `0`). -/
def indexTokensFrom (d : Nat) (i : Nat) (toks : List String)
    (vocab : List (String × List (DocKey × List Nat))) :
    List (String × List (DocKey × List Nat)) :=
  match toks with
  | [] => vocab
  | t :: rest => indexTokensFrom d (i + 1) rest (addPosting vocab t d i)

/-- The outer loop `for doc_id, text in enumerate(docs)`, generalized
over the starting doc id. -/
def buildVocabFrom (lowercase remove_digits remove_punct : Bool)
    (lang : String) (use_stop : Bool) (i : Nat) (docs : List String)
    (vocab : List (String × List (DocKey × List Nat))) :
    List (String × List (DocKey × List Nat)) :=
  match docs with
  | [] => vocab
  | text :: rest =>
    buildVocabFrom lowercase remove_digits remove_punct lang use_stop
      (i + 1) rest
      (indexTokensFrom i 0
        (tokenize text lowercase remove_digits remove_punct lang use_stop)
        vocab)

/-- Embedding of `build_inverted_index(docs, **tokkw)`: accumulate all
postings, then finalize every entry with `df = len(postings)` and
record `num_docs = len(docs)`. -/
def build_inverted_index (docs : List String)
    (lowercase remove_digits remove_punct : Bool) (lang : String)
    (use_stop : Bool) : InvIndex :=
  let vocab :=
    buildVocabFrom lowercase remove_digits remove_punct lang use_stop 0 docs []
  { index := vocab.map (fun te => (te.1, { df := te.2.length, postings := te.2 })),
    num_docs := docs.length }

/-! ## Vocabulary statistics (`vocabulary_stats` in `app.py`) -/

/-- Stable insertion of one row under a boolean "comes no later than"
test; used to model Python's stable `list.sort`. -/
def insertRow {α : Type} (le : α → α → Bool) (a : α) : List α → List α
  | [] => [a]
  | b :: rest => if le a b then a :: b :: rest else b :: insertRow le a rest

/-- Stable insertion sort, modelling Python's stable `list.sort`. -/
def stableSort {α : Type} (le : α → α → Bool) (l : List α) : List α :=
  l.foldr (insertRow le) []

/-- The sort key `lambda x: (-x[1], x[0])`: df descending, then term
ascending. -/
def rowLE (a b : String × Nat × Nat) : Bool :=
  decide (b.2.1 < a.2.1 ∨ (a.2.1 = b.2.1 ∧ a.1 ≤ b.1))

/-- Embedding of `vocabulary_stats(index)`: rows `(term, df, cf)` with
`cf` the sum of posting-list lengths, sorted by df descending then
term ascending. -/
def vocabulary_stats (idx : InvIndex) : List (String × Nat × Nat) :=
  let rows := idx.index.map
    (fun te => (te.1, te.2.df, (te.2.postings.map (fun p => p.2.length)).sum))
  stableSort rowLE rows

/-! ## Boolean search (`boolean_search` in `app.py`)

The evaluator mutates two Python lists used as stacks and calls
`list.pop()`, which raises `IndexError` on an empty list; a raised
exception is embedded as `none`. -/

/-- The token test `tok in ("AND", "OR", "NOT")`. -/
def isOpTok (t : String) : Bool :=
  decide (t = "AND" ∨ t = "OR" ∨ t = "NOT")

/-- The precedence table `prec`, with `prec.get(op, 0)` semantics. -/
def opPrec (t : String) : Nat :=
  if t = "NOT" then 3 else if t = "AND" then 2 else if t = "OR" then 1 else 0

/-- `term_docs(term)`: the set of doc keys in the term's postings dict,
or the empty set for an absent term. -/
def term_docs (idx : InvIndex) (term : String) : Finset DocKey :=
  match idxGet idx term with
  | none => ∅
  | some e => (e.postings.map Prod.fst).toFinset

/-- `set(range(index["num_docs"]))`: the NOT universe. -/
def pyUniverse (nd : Nat) : Finset DocKey :=
  ((List.range nd).map Sum.inl).toFinset

/-- One call of `apply_op()` given the operator already popped from the
operator stack: `NOT` pops one operand, `AND`/`OR` pop two; a pop from
an empty operand stack raises (`none`).  The head of the list is the
top of the stack. -/
def applyOp (op : String) (out : List (Finset DocKey)) (nd : Nat) :
    Option (List (Finset DocKey)) :=
  if op = "NOT" then
    match out with
    | a :: rest => some ((pyUniverse nd \ a) :: rest)
    | [] => none
  else
    match out with
    | b :: a :: rest =>
      if op = "AND" then some ((a ∩ b) :: rest)
      else if op = "OR" then some ((a ∪ b) :: rest)
      else some rest
    | _ => none

/-- The loop `while op_stack and prec.get(op_stack[-1], 0) >= prec[tok]:
apply_op()`. -/
def reduceWhile (p : Nat) (out : List (Finset DocKey)) (ops : List String)
    (nd : Nat) : Option (List (Finset DocKey) × List String) :=
  match ops with
  | [] => some (out, [])
  | op :: rest =>
    if p ≤ opPrec op then
      match applyOp op out nd with
      | none => none
      | some out' => reduceWhile p out' rest nd
    else some (out, op :: rest)

/-- The main token loop of `boolean_search`. -/
def evalLoop (idx : InvIndex) :
    List String → List (Finset DocKey) → List String →
    Option (List (Finset DocKey) × List String)
  | [], out, ops => some (out, ops)
  | tok :: rest, out, ops =>
    if isOpTok tok then
      match reduceWhile (opPrec tok) out ops idx.num_docs with
      | none => none
      | some (out', ops') => evalLoop idx rest out' (tok :: ops')
    else evalLoop idx rest (term_docs idx tok :: out) ops

/-- The trailing loop `while op_stack: apply_op()`. -/
def drainOps (out : List (Finset DocKey)) (ops : List String) (nd : Nat) :
    Option (List (Finset DocKey)) :=
  match ops with
  | [] => some out
  | op :: rest =>
    match applyOp op out nd with
    | none => none
    | some out' => drainOps out' rest nd

/-- `query.strip().split()`, the tokenizer of `boolean_search`. -/
def queryTokens (query : String) : List String :=
  (pySplit (pyStrip query.data)).map String.mk

/-- The tail of `boolean_search` after the token loop: drain the
operator stack, then return `out_stack[-1] if out_stack else set()`. -/
def finishEval (nd : Nat)
    (st : Option (List (Finset DocKey) × List String)) :
    Option (Finset DocKey) :=
  match st with
  | none => none
  | some (out, ops) =>
    match drainOps out ops nd with
    | none => none
    | some out' => some (out'.headD ∅)

/-- Embedding of `boolean_search(query, index)`.  Result `none` means
the Python code raised an exception (operand-stack underflow);
`some s` means it returned the set `s`. -/
def boolean_search (query : String) (idx : InvIndex) :
    Option (Finset DocKey) :=
  let tokens := queryTokens query
  if tokens.isEmpty then some ∅
  else finishEval idx.num_docs (evalLoop idx tokens [] [])

/-! ## Phrase search (`phrase_search` in `app.py`) -/

/-- The candidate-intersection loop over `words[1:]`, with the two
short-circuits to the empty set. -/
def candidateLoop (idx : InvIndex) :
    List String → Finset DocKey → Finset DocKey
  | [], cand => cand
  | w :: rest, cand =>
    match idxGet idx w with
    | none => ∅
    | some e =>
      if cand ∩ (e.postings.map Prod.fst).toFinset = ∅ then ∅
      else candidateLoop idx rest (cand ∩ (e.postings.map Prod.fst).toFinset)

/-- `index["index"][w]["postings"][d]`; in the source both keys are
guaranteed present (the doc survived the candidate intersection), so
the `KeyError` branches are unreachable and default to `[]`. -/
def getPositions (idx : InvIndex) (w : String) (d : DocKey) : List Nat :=
  match idxGet idx w with
  | none => []
  | some e => (alistGet e.postings d).getD []

/-- The list `shifted_sets`: the i-th word's positions, each shifted
down by `i`.  Python ints can go negative, so positions shift in `ℤ`. -/
def shiftedSets (idx : InvIndex) (words : List String) (d : DocKey) :
    List (Finset Int) :=
  words.enum.map
    (fun iw => ((getPositions idx iw.2 d).map (fun p => (p : Int) - iw.1)).toFinset)

/-- `set.intersection(*sets)` over a nonempty list of sets (the source
never calls it on an empty list; that case defaults to `∅`). -/
def interAll (sets : List (Finset Int)) : Finset Int :=
  match sets with
  | [] => ∅
  | s :: rest => rest.foldl (fun a b => a ∩ b) s

/-- Embedding of `phrase_search(phrase, index)`: split the phrase,
intersect the document sets of all words, then keep the candidates
whose shifted position sets meet. -/
def phrase_search (phrase : String) (idx : InvIndex) : Finset DocKey :=
  let words := (pySplit phrase.data).map String.mk
  match words with
  | [] => ∅
  | w :: rest =>
    match idxGet idx w with
    | none => ∅
    | some first =>
      let cands := candidateLoop idx rest ((first.postings.map Prod.fst).toFinset)
      cands.filter (fun d => interAll (shiftedSets idx words d) ≠ ∅)

/-! ## JSON snapshot (module-level `json.dumps` save / `json.loads` load) -/

/-- A JSON value, as far as the snapshot shape needs. -/
inductive JsonVal : Type where
  | num (n : Nat)
  | str (s : String)
  | arr (l : List JsonVal)
  | obj (l : List (String × JsonVal))

/-- `json.dumps` turns an `int` dict key into its decimal string; a
`str` key stays itself. -/
def jsonKeyStr (k : DocKey) : String :=
  match k with
  | Sum.inl n => toString n
  | Sum.inr s => s

/-- The snapshot produced by `json.dumps(index)`: postings keys become
strings, everything else is shape-preserving. -/
def dumpsIndex (idx : InvIndex) : JsonVal :=
  .obj [("index", .obj (idx.index.map (fun te =>
          (te.1, .obj [("df", .num te.2.df),
                       ("postings", .obj (te.2.postings.map (fun pp =>
                          (jsonKeyStr pp.1, .arr (pp.2.map .num)))))])))),
        ("num_docs", .num idx.num_docs)]

/-- Parse a list of JSON numbers back into a position list. -/
def parsePositions : List JsonVal → Option (List Nat)
  | [] => some []
  | .num n :: rest =>
    match parsePositions rest with
    | some l => some (n :: l)
    | none => none
  | _ => none

/-- Parse the postings object of one term: string keys, number arrays. -/
def parsePostings : List (String × JsonVal) → Option (List (DocKey × List Nat))
  | [] => some []
  | (k, .arr pos) :: rest =>
    match parsePositions pos, parsePostings rest with
    | some l, some ps => some ((Sum.inr k, l) :: ps)
    | _, _ => none
  | _ => none

/-- Parse one term entry `{"df": n, "postings": {...}}` of the snapshot. -/
def parseEntry (j : JsonVal) : Option TermEntry :=
  match j with
  | .obj [("df", .num d), ("postings", .obj ps)] =>
    match parsePostings ps with
    | some postings => some { df := d, postings := postings }
    | none => none
  | _ => none

/-- Parse the term dictionary of the snapshot. -/
def parseTerms : List (String × JsonVal) → Option (List (String × TermEntry))
  | [] => some []
  | (t, j) :: rest =>
    match parseEntry j, parseTerms rest with
    | some e, some es => some ((t, e) :: es)
    | _, _ => none

/-- Embedding of loading a snapshot (`json.loads` plus the
`"index" in data and "num_docs" in data` shape check of the load tab):
document-id keys come back as strings, since JSON object keys are
strings. -/
def loadsIndex (j : JsonVal) : Option InvIndex :=
  match j with
  | .obj [("index", .obj terms), ("num_docs", .num nd)] =>
    match parseTerms terms with
    | some entries => some { index := entries, num_docs := nd }
    | none => none
  | _ => none

/-- The key change a dumps/loads round trip applies to one term entry:
every postings key is replaced by its JSON string form. -/
def stringifyEntry (e : TermEntry) : TermEntry :=
  { df := e.df,
    postings := e.postings.map (fun pp =>
      ((Sum.inr (jsonKeyStr pp.1) : DocKey), pp.2)) }

/-- The key-stringification a dumps/loads round trip applies to an
index. -/
def stringifyKeys (idx : InvIndex) : InvIndex :=
  { index := idx.index.map (fun te => (te.1, stringifyEntry te.2)),
    num_docs := idx.num_docs }

/-! ## Query construction and claim-side definitions -/

/-- Join a list of character words with single spaces. -/
def joinChars : List (List Char) → List Char
  | [] => []
  | [w] => w
  | w :: rest => w ++ ' ' :: joinChars rest

/-- Join query tokens with single spaces, building the query string
`"t1 t2 … tn"`. -/
def joinTokens (ts : List String) : String :=
  String.mk (joinChars (ts.map String.data))

/-- For words `[w1, …, wn]`, the token list `["AND", w1, "AND", w2, …]`
(used as the continuation of an AND-chain query). -/
def andTokensTail : List String → List String
  | [] => []
  | w :: rest => "AND" :: w :: andTokensTail rest

/-- The token list `[w1, "AND", w2, "AND", …, "AND", wn]` of the
conjunctive query over `words`. -/
def andQueryTokens : List String → List String
  | [] => []
  | w :: rest => w :: andTokensTail rest

/-- A string that the query grammar of §4.4 classifies as a term: a
single nonempty whitespace-free token that is not one of the reserved
operator words `AND`, `OR`, `NOT`. -/
def IsTermTok (t : String) : Prop :=
  isOpTok t = false ∧ t.data ≠ [] ∧ ∀ c ∈ t.data, isPySpace c = false

instance (t : String) : Decidable (IsTermTok t) := by
  unfold IsTermTok
  infer_instance

/-- Positions (starting at `i`) at which `term` occurs in a token
list; characterizes the posting lists the builder produces. -/
def occsFrom (i : Nat) (toks : List String) (term : String) : List Nat :=
  match toks with
  | [] => []
  | t :: rest =>
    if t = term then i :: occsFrom (i + 1) rest term
    else occsFrom (i + 1) rest term

/-- The postings map the builder produces for `term`: one pair per
document (ids starting at `i`) in which the term occurs. -/
def docOccsFrom (lc rd rp : Bool) (lang : String) (us : Bool) (i : Nat)
    (docs : List String) (term : String) : List (DocKey × List Nat) :=
  match docs with
  | [] => []
  | text :: rest =>
    let o := occsFrom 0 (tokenize text lc rd rp lang us) term
    if o = [] then docOccsFrom lc rd rp lang us (i + 1) rest term
    else (Sum.inl i, o) :: docOccsFrom lc rd rp lang us (i + 1) rest term

/-- The normalization pipeline exactly as the specification words it,
parameterized by the digit class: case folding, then digit-run
stripping (each run replaced by a single space), then punctuation
stripping, each only if enabled and in that order; collapse whitespace
runs and trim; split on whitespace; finally drop stopwords verbatim if
enabled. -/
def tokenizeSpecWith (digit : Char → Bool) (text : String)
    (lowercase remove_digits remove_punct : Bool) (lang : String)
    (use_stop : Bool) : List String :=
  let t := text.data
  let t := if lowercase then t.map pyLower else t
  let t := if remove_digits then stripRuns digit t else t
  let t :=
    if remove_punct then
      t.map (fun c => if !(isPyWord c || isPySpace c) then ' ' else c)
    else t
  let tokens := (pySplit (pyStrip (collapseSpaces t))).map String.mk
  if use_stop then
    let sw := if lang = "id" then STOPWORDS_ID else STOPWORDS_EN
    tokens.filter (fun tk => !(decide (tk ∈ sw)))
  else tokens

/-! ## Shared sample corpus (Scenario A of the specification) -/

/-- The corpus of the specification's Scenario A. -/
def sampleDocs : List String :=
  ["the cat sat", "the dog sat", "cat and dog"]

/-- The Scenario A index: punctuation removal on, stopword filtering
off, the remaining options at their source defaults. -/
def sampleIndex : InvIndex :=
  build_inverted_index sampleDocs true false true "id" false

/-- A one-document corpus used to exhibit the serialization round-trip
key change. -/
def tinyIndex : InvIndex :=
  build_inverted_index ["cat"] true false true "id" false

/-! # Lemmas: splitting and query-token recovery -/

theorem string_mk_data (s : String) : String.mk s.data = s := by
  cases s
  rfl

theorem splitAux_allspace (sp : List Char) (acc : List Char)
    (h : ∀ c ∈ sp, isPySpace c = true) :
    splitAux sp acc = if acc.isEmpty then [] else [acc.reverse] := by
  induction sp generalizing acc with
  | nil => rfl
  | cons c cs ih =>
    have hc : isPySpace c = true := h c (by simp)
    have hrest : ∀ x ∈ cs, isPySpace x = true := fun x hx => h x (by simp [hx])
    cases ha : acc.isEmpty <;> simp [splitAux, hc, ha, ih [] hrest]

theorem splitAux_append_spaces (l sp : List Char) (acc : List Char)
    (h : ∀ c ∈ sp, isPySpace c = true) :
    splitAux (l ++ sp) acc = splitAux l acc := by
  induction l generalizing acc with
  | nil =>
    simp only [List.nil_append]
    rw [splitAux_allspace sp acc h]
    rfl
  | cons c cs ih =>
    cases hc : isPySpace c <;> cases ha : acc.isEmpty <;>
      simp [splitAux, hc, ha, ih]

theorem splitAux_dropWhile (l : List Char) :
    splitAux (l.dropWhile isPySpace) [] = splitAux l [] := by
  induction l with
  | nil => rfl
  | cons c cs ih =>
    cases hc : isPySpace c
    · simp [List.dropWhile_cons, hc, splitAux]
    · simp [List.dropWhile_cons, hc, splitAux, ih]

theorem pySplit_pyStrip (l : List Char) : pySplit (pyStrip l) = pySplit l := by
  unfold pySplit pyStrip
  have hdecomp : l.dropWhile isPySpace =
      ((l.dropWhile isPySpace).reverse.dropWhile isPySpace).reverse ++
        ((l.dropWhile isPySpace).reverse.takeWhile isPySpace).reverse := by
    conv_lhs =>
      rw [← List.reverse_reverse (l.dropWhile isPySpace),
        ← List.takeWhile_append_dropWhile isPySpace (l.dropWhile isPySpace).reverse]
    rw [List.reverse_append]
  rw [← splitAux_dropWhile l]
  conv_rhs => rw [hdecomp]
  rw [splitAux_append_spaces]
  intro c hc
  rw [List.mem_reverse] at hc
  exact List.mem_takeWhile_imp hc

theorem splitAux_consume (w rest : List Char) (acc : List Char)
    (h : ∀ c ∈ w, isPySpace c = false) :
    splitAux (w ++ rest) acc = splitAux rest (w.reverse ++ acc) := by
  induction w generalizing acc with
  | nil => simp
  | cons c cs ih =>
    have hc : isPySpace c = false := h c (by simp)
    have hcs : ∀ x ∈ cs, isPySpace x = false := fun x hx => h x (by simp [hx])
    simp [splitAux, hc, ih (c :: acc) hcs]

theorem pySplit_joinChars (ws : List (List Char))
    (h : ∀ w ∈ ws, w ≠ [] ∧ ∀ c ∈ w, isPySpace c = false) :
    pySplit (joinChars ws) = ws := by
  induction ws with
  | nil => rfl
  | cons w rest ih =>
    obtain ⟨hw, hwc⟩ := h w (by simp)
    have hrest : ∀ x ∈ rest, x ≠ [] ∧ ∀ c ∈ x, isPySpace c = false :=
      fun x hx => h x (by simp [hx])
    cases rest with
    | nil =>
      show splitAux w [] = [w]
      have := splitAux_consume w [] [] hwc
      simp only [List.append_nil] at this
      rw [this]
      simp [splitAux, hw]
    | cons r more =>
      show splitAux (w ++ ' ' :: joinChars (r :: more)) [] = w :: r :: more
      rw [splitAux_consume w _ [] hwc]
      have hne : (w.reverse ++ []).isEmpty = false := by
        simp [List.isEmpty_iff, hw]
      have hsp : isPySpace ' ' = true := by decide
      simp only [splitAux, hsp, hne, if_true]
      rw [List.append_nil, List.reverse_reverse]
      exact congrArg (fun l => w :: l) (ih hrest)

theorem queryTokens_joinTokens (ts : List String)
    (h : ∀ t ∈ ts, t.data ≠ [] ∧ ∀ c ∈ t.data, isPySpace c = false) :
    queryTokens (joinTokens ts) = ts := by
  unfold queryTokens
  rw [pySplit_pyStrip]
  have hdata : (joinTokens ts).data = joinChars (ts.map String.data) := rfl
  rw [hdata, pySplit_joinChars (ts.map String.data)]
  · rw [List.map_map]
    exact List.map_id'' (fun s => by rw [Function.comp_apply, string_mk_data]) ts
  · intro w hw
    obtain ⟨t, ht, rfl⟩ := List.mem_map.mp hw
    exact h t ht

theorem phraseWords_joinTokens (ts : List String)
    (h : ∀ t ∈ ts, t.data ≠ [] ∧ ∀ c ∈ t.data, isPySpace c = false) :
    (pySplit (joinTokens ts).data).map String.mk = ts := by
  have hdata : (joinTokens ts).data = joinChars (ts.map String.data) := rfl
  rw [hdata, pySplit_joinChars (ts.map String.data)]
  · rw [List.map_map]
    exact List.map_id'' (fun s => by rw [Function.comp_apply, string_mk_data]) ts
  · intro w hw
    obtain ⟨t, ht, rfl⟩ := List.mem_map.mp hw
    exact h t ht

/-! # Lemmas: Boolean evaluation -/

theorem evalLoop_term (idx : InvIndex) (t : String) (rest : List String)
    (out : List (Finset DocKey)) (ops : List String)
    (h : isOpTok t = false) :
    evalLoop idx (t :: rest) out ops =
      evalLoop idx rest (term_docs idx t :: out) ops := by
  simp [evalLoop, h]

theorem evalLoop_terms (idx : InvIndex) (ts : List String) :
    ∀ out ops, (∀ t ∈ ts, isOpTok t = false) →
      evalLoop idx ts out ops =
        some ((ts.map (term_docs idx)).reverse ++ out, ops) := by
  induction ts with
  | nil => intro out ops _; simp [evalLoop]
  | cons t rest ih =>
    intro out ops h
    rw [evalLoop_term idx t rest out ops (h t (by simp))]
    rw [ih _ _ (fun x hx => h x (by simp [hx]))]
    simp

theorem finishEval_andTail (idx : InvIndex) (rest : List String) :
    ∀ a b : Finset DocKey, (∀ w ∈ rest, isOpTok w = false) →
      finishEval idx.num_docs
          (evalLoop idx (andTokensTail rest) [b, a] ["AND"]) =
        some (rest.foldl (fun s w => s ∩ term_docs idx w) (a ∩ b)) := by
  induction rest with
  | nil =>
    intro a b _
    simp [andTokensTail, evalLoop, finishEval, drainOps, applyOp]
  | cons w more ih =>
    intro a b h
    have hw : isOpTok w = false := h w (by simp)
    have hmore : ∀ x ∈ more, isOpTok x = false := fun x hx => h x (by simp [hx])
    show finishEval _
        (evalLoop idx ("AND" :: w :: andTokensTail more) [b, a] ["AND"]) = _
    have hred : reduceWhile (opPrec "AND") [b, a] ["AND"] idx.num_docs =
        some ([a ∩ b], []) := by
      simp [reduceWhile, applyOp, opPrec]
    simp only [evalLoop, isOpTok, hred]
    norm_num
    have hw' : ¬(w = "AND" ∨ w = "OR" ∨ w = "NOT") := by
      simpa [isOpTok] using hw
    rw [if_neg hw', ih (a ∩ b) (term_docs idx w) hmore]
    simp [Finset.inter_assoc]

theorem mem_andTokensTail (ws : List String) (t : String)
    (h : t ∈ andTokensTail ws) : t = "AND" ∨ t ∈ ws := by
  induction ws with
  | nil => simp [andTokensTail] at h
  | cons w more ih =>
    simp only [andTokensTail, List.mem_cons] at h
    rcases h with rfl | rfl | h
    · exact Or.inl rfl
    · exact Or.inr (by simp)
    · rcases ih h with h' | h'
      · exact Or.inl h'
      · exact Or.inr (by simp [h'])

theorem nonWS_of_isTermTok (t : String) (h : IsTermTok t) :
    t.data ≠ [] ∧ ∀ c ∈ t.data, isPySpace c = false :=
  ⟨h.2.1, h.2.2⟩

theorem queryTokens_single (t : String)
    (h : t.data ≠ [] ∧ ∀ c ∈ t.data, isPySpace c = false) :
    queryTokens t = [t] := by
  have hj : joinTokens [t] = t := string_mk_data t
  rw [← hj]
  apply queryTokens_joinTokens
  intro u hu
  rcases List.mem_singleton.mp hu with rfl
  exact h

theorem boolean_search_single (idx : InvIndex) (t : String)
    (h : IsTermTok t) : boolean_search t idx = some (term_docs idx t) := by
  have htoks := queryTokens_single t (nonWS_of_isTermTok t h)
  simp [boolean_search, htoks, evalLoop_term idx t [] [] [] h.1, evalLoop,
    finishEval, drainOps]

theorem boolean_search_andChain (idx : InvIndex) (w : String) (ws : List String)
    (hw : IsTermTok w) (hws : ∀ x ∈ ws, IsTermTok x) :
    boolean_search (joinTokens (andQueryTokens (w :: ws))) idx =
      some (ws.foldl (fun s x => s ∩ term_docs idx x) (term_docs idx w)) := by
  have htoks : queryTokens (joinTokens (andQueryTokens (w :: ws))) =
      w :: andTokensTail ws := by
    apply queryTokens_joinTokens
    intro t ht
    rcases List.mem_cons.mp ht with rfl | ht'
    · exact nonWS_of_isTermTok t hw
    · rcases mem_andTokensTail ws t ht' with rfl | hmem
      · exact ⟨by decide, by decide⟩
      · exact nonWS_of_isTermTok t (hws t hmem)
  rw [boolean_search, htoks]
  simp only [List.isEmpty_cons, Bool.false_eq_true, if_false]
  rw [evalLoop_term idx w _ [] [] hw.1]
  cases ws with
  | nil => simp [andTokensTail, evalLoop, finishEval, drainOps]
  | cons x more =>
    have hx : IsTermTok x := hws x (by simp)
    have hmore : ∀ u ∈ more, isOpTok u = false :=
      fun u hu => (hws u (by simp [hu])).1
    show finishEval _
        (evalLoop idx ("AND" :: x :: andTokensTail more) [term_docs idx w] []) = _
    have hred : reduceWhile (opPrec "AND") [term_docs idx w] [] idx.num_docs =
        some ([term_docs idx w], []) := by simp [reduceWhile]
    simp only [evalLoop, isOpTok, hred]
    norm_num
    have hx' : ¬(x = "AND" ∨ x = "OR" ∨ x = "NOT") := by
      simpa [isOpTok] using hx.1
    rw [if_neg hx',
      finishEval_andTail idx more (term_docs idx w) (term_docs idx x) hmore]

/-- C4: with `NOT` binding tighter than `AND`, which binds tighter than
`OR`, the query `a OR b AND NOT c` evaluates to
`docs(a) ∪ (docs(b) ∩ (universe − docs(c)))`. -/
theorem claimC4_theorem (idx : InvIndex) (a b c : String)
    (ha : IsTermTok a) (hb : IsTermTok b) (hc : IsTermTok c) :
    boolean_search (joinTokens [a, "OR", b, "AND", "NOT", c]) idx =
      some (term_docs idx a ∪
        (term_docs idx b ∩ (pyUniverse idx.num_docs \ term_docs idx c))) := by
  have htoks : queryTokens (joinTokens [a, "OR", b, "AND", "NOT", c]) =
      [a, "OR", b, "AND", "NOT", c] := by
    apply queryTokens_joinTokens
    intro t ht
    simp only [List.mem_cons, List.not_mem_nil, or_false] at ht
    rcases ht with rfl | rfl | rfl | rfl | rfl | rfl
    exacts [nonWS_of_isTermTok t ha, ⟨by decide, by decide⟩,
      nonWS_of_isTermTok t hb, ⟨by decide, by decide⟩,
      ⟨by decide, by decide⟩, nonWS_of_isTermTok t hc]
  have ha' : ¬(a = "AND" ∨ a = "OR" ∨ a = "NOT") := by simpa [isOpTok] using ha.1
  have hb' : ¬(b = "AND" ∨ b = "OR" ∨ b = "NOT") := by simpa [isOpTok] using hb.1
  have hc' : ¬(c = "AND" ∨ c = "OR" ∨ c = "NOT") := by simpa [isOpTok] using hc.1
  rw [boolean_search, htoks]
  simp [evalLoop, reduceWhile, applyOp, opPrec, isOpTok, finishEval, drainOps,
    ha', hb', hc']

/-- C5: `x AND y`, `x OR y` and `NOT x` evaluate to the intersection,
union and universe-complement of the single-term results. -/
theorem claimC5_theorem (idx : InvIndex) (x y : String)
    (hx : IsTermTok x) (hy : IsTermTok y)
    (hpx : (idxGet idx x).isSome = true) (hpy : (idxGet idx y).isSome = true) :
    boolean_search x idx = some (term_docs idx x) ∧
    boolean_search y idx = some (term_docs idx y) ∧
    boolean_search (joinTokens [x, "AND", y]) idx =
      some (term_docs idx x ∩ term_docs idx y) ∧
    boolean_search (joinTokens [x, "OR", y]) idx =
      some (term_docs idx x ∪ term_docs idx y) ∧
    boolean_search (joinTokens ["NOT", x]) idx =
      some (pyUniverse idx.num_docs \ term_docs idx x) := by
  have hx' : ¬(x = "AND" ∨ x = "OR" ∨ x = "NOT") := by simpa [isOpTok] using hx.1
  have hy' : ¬(y = "AND" ∨ y = "OR" ∨ y = "NOT") := by simpa [isOpTok] using hy.1
  refine ⟨boolean_search_single idx x hx, boolean_search_single idx y hy, ?_, ?_, ?_⟩
  · have htoks : queryTokens (joinTokens [x, "AND", y]) = [x, "AND", y] := by
      apply queryTokens_joinTokens
      intro t ht
      simp only [List.mem_cons, List.not_mem_nil, or_false] at ht
      rcases ht with rfl | rfl | rfl
      exacts [nonWS_of_isTermTok t hx, ⟨by decide, by decide⟩,
        nonWS_of_isTermTok t hy]
    rw [boolean_search, htoks]
    simp [evalLoop, reduceWhile, applyOp, opPrec, isOpTok, finishEval,
      drainOps, hx', hy']
  · have htoks : queryTokens (joinTokens [x, "OR", y]) = [x, "OR", y] := by
      apply queryTokens_joinTokens
      intro t ht
      simp only [List.mem_cons, List.not_mem_nil, or_false] at ht
      rcases ht with rfl | rfl | rfl
      exacts [nonWS_of_isTermTok t hx, ⟨by decide, by decide⟩,
        nonWS_of_isTermTok t hy]
    rw [boolean_search, htoks]
    simp [evalLoop, reduceWhile, applyOp, opPrec, isOpTok, finishEval,
      drainOps, hx', hy']
  · have htoks : queryTokens (joinTokens ["NOT", x]) = ["NOT", x] := by
      apply queryTokens_joinTokens
      intro t ht
      simp only [List.mem_cons, List.not_mem_nil, or_false] at ht
      rcases ht with rfl | rfl
      exacts [⟨by decide, by decide⟩, nonWS_of_isTermTok t hx]
    rw [boolean_search, htoks]
    simp [evalLoop, reduceWhile, applyOp, opPrec, isOpTok, finishEval,
      drainOps, hx']

/-- C9: a query of two or more term tokens with no operator between
them returns exactly the document set of the last term; the earlier
operand sets are silently discarded. -/
theorem claimC9_theorem (idx : InvIndex) (ts : List String) (t : String)
    (_hts : ts ≠ []) (h : ∀ u ∈ ts ++ [t], IsTermTok u) :
    boolean_search (joinTokens (ts ++ [t])) idx = some (term_docs idx t) := by
  have htoks : queryTokens (joinTokens (ts ++ [t])) = ts ++ [t] :=
    queryTokens_joinTokens _ (fun u hu => nonWS_of_isTermTok u (h u hu))
  rw [boolean_search, htoks]
  have hne : (ts ++ [t]).isEmpty = false := by
    simp [List.isEmpty_iff]
  rw [if_neg (by simp [hne])]
  rw [evalLoop_terms idx (ts ++ [t]) [] [] (fun u hu => (h u hu).1)]
  simp [finishEval, drainOps]

theorem candidateLoop_subset (idx : InvIndex) (ws : List String) :
    ∀ c : Finset DocKey,
      candidateLoop idx ws c ⊆
        ws.foldl (fun s w => s ∩ term_docs idx w) c := by
  induction ws with
  | nil => intro c; simp [candidateLoop]
  | cons w more ih =>
    intro c
    show candidateLoop idx (w :: more) c ⊆
      more.foldl (fun s u => s ∩ term_docs idx u) (c ∩ term_docs idx w)
    cases hg : idxGet idx w with
    | none => simp [candidateLoop, hg]
    | some e =>
      have hterm : term_docs idx w = (e.postings.map Prod.fst).toFinset := by
        simp [term_docs, hg]
      simp only [candidateLoop, hg, ← hterm]
      by_cases hc : c ∩ term_docs idx w = ∅
      · simp [hc]
      · rw [if_neg hc]
        exact ih (c ∩ term_docs idx w)

/-- C7: on any index, a phrase query over nonempty words `w1 … wn` is a
subset of the Boolean conjunctive query `w1 AND w2 AND … AND wn`. -/
theorem claimC7_theorem (idx : InvIndex) (ws : List String) (S : Finset DocKey)
    (hne : ws ≠ []) (hws : ∀ w ∈ ws, IsTermTok w)
    (hbs : boolean_search (joinTokens (andQueryTokens ws)) idx = some S) :
    phrase_search (joinTokens ws) idx ⊆ S := by
  obtain ⟨w, rest, rfl⟩ := List.exists_cons_of_ne_nil hne
  have hS : S = rest.foldl (fun s x => s ∩ term_docs idx x) (term_docs idx w) := by
    have := boolean_search_andChain idx w rest (hws w (by simp))
      (fun x hx => hws x (by simp [hx]))
    rw [hbs] at this
    exact Option.some_inj.mp this
  have hwords : (pySplit (joinTokens (w :: rest)).data).map String.mk = w :: rest :=
    phraseWords_joinTokens _ (fun u hu => nonWS_of_isTermTok u (hws u hu))
  rw [phrase_search, hwords]
  cases hg : idxGet idx w with
  | none => simp [hg]
  | some first =>
    have hterm : term_docs idx w = (first.postings.map Prod.fst).toFinset := by
      simp [term_docs, hg]
    simp only [hg]
    intro d hd
    have hd' : d ∈ candidateLoop idx rest ((first.postings.map Prod.fst).toFinset) :=
      Finset.mem_of_mem_filter d hd
    rw [hS]
    rw [← hterm] at hd'
    exact candidateLoop_subset idx rest (term_docs idx w) hd'

/-- C1 (counterexample): on the Scenario A index the malformed queries
`"cat AND"` and `"AND"` raise an operand-stack underflow (`none`); in
particular they do not return the empty set. -/
theorem claimC1_counterexample :
    boolean_search "cat AND" sampleIndex = none ∧
    boolean_search "AND" sampleIndex ≠ some (∅ : Finset DocKey) := by
  constructor
  · decide
  · decide

/-- C1 (amended): an empty or whitespace-only query returns the empty
set without error, but a malformed query whose evaluation underflows
the operand stack (a lone operator, or a trailing binary operator)
raises an exception instead of returning the empty set. -/
theorem claimC1_theorem (idx : InvIndex) :
    boolean_search "" idx = some (∅ : Finset DocKey) ∧
    boolean_search "AND" idx = none ∧
    boolean_search "cat AND" idx = none := by
  refine ⟨rfl, ?_, ?_⟩
  · have htoks : queryTokens "AND" = ["AND"] := by decide
    rw [boolean_search, htoks]
    simp [evalLoop, reduceWhile, applyOp, opPrec, isOpTok, finishEval, drainOps]
  · have htoks : queryTokens "cat AND" = ["cat", "AND"] := by decide
    rw [boolean_search, htoks]
    simp [evalLoop, reduceWhile, applyOp, opPrec, isOpTok, finishEval,
      drainOps, term_docs]

/-! # Lemmas: dictionary updates and index construction -/

theorem alistGet_update_self {α β : Type} [DecidableEq α]
    (l : List (α × β)) (k : α) (f : β → β) (dflt : β) :
    alistGet (alistUpdate l k f dflt) k = some (f ((alistGet l k).getD dflt)) := by
  induction l with
  | nil => simp [alistUpdate, alistGet]
  | cons p rest ih =>
    obtain ⟨a, b⟩ := p
    by_cases hk : k = a
    · subst hk
      simp [alistUpdate, alistGet]
    · simp [alistUpdate, alistGet, hk, ih]

theorem alistGet_update_other {α β : Type} [DecidableEq α]
    (l : List (α × β)) (k k' : α) (f : β → β) (dflt : β) (h : k' ≠ k) :
    alistGet (alistUpdate l k f dflt) k' = alistGet l k' := by
  induction l with
  | nil => simp [alistUpdate, alistGet, h]
  | cons p rest ih =>
    obtain ⟨a, b⟩ := p
    by_cases hk : k = a
    · subst hk
      simp [alistUpdate, alistGet, h]
    · simp [alistUpdate, alistGet, hk, ih]

theorem alistUpdate_append {α β : Type} [DecidableEq α]
    (l : List (α × β)) (k : α) (f : β → β) (dflt : β)
    (h : ∀ p ∈ l, p.1 ≠ k) :
    alistUpdate l k f dflt = l ++ [(k, f dflt)] := by
  induction l with
  | nil => simp [alistUpdate]
  | cons p rest ih =>
    obtain ⟨a, b⟩ := p
    have ha : a ≠ k := h (a, b) (by simp)
    simp only [alistUpdate, if_neg (Ne.symm ha), List.cons_append,
      List.cons.injEq, true_and]
    exact ih (fun p hp => h p (by simp [hp]))

theorem alistUpdate_update {α β : Type} [DecidableEq α]
    (l : List (α × β)) (k : α) (f g : β → β) (dflt : β) :
    alistUpdate (alistUpdate l k f dflt) k g dflt =
      alistUpdate l k (fun x => g (f x)) dflt := by
  induction l with
  | nil => simp [alistUpdate]
  | cons p rest ih =>
    obtain ⟨a, b⟩ := p
    by_cases hk : k = a
    · subst hk
      simp [alistUpdate]
    · simp [alistUpdate, hk, ih]

theorem alistGet_finalize (l : List (String × List (DocKey × List Nat)))
    (term : String) :
    alistGet (l.map (fun te =>
        (te.1, ({ df := te.2.length, postings := te.2 } : TermEntry)))) term =
      (alistGet l term).map
        (fun pm => { df := pm.length, postings := pm }) := by
  induction l with
  | nil => rfl
  | cons p rest ih =>
    obtain ⟨a, b⟩ := p
    by_cases hk : term = a <;> simp [alistGet, hk, ih]

theorem occsFrom_cons_self (i : Nat) (t : String) (rest : List String) :
    occsFrom i (t :: rest) t = i :: occsFrom (i + 1) rest t := by
  simp [occsFrom]

theorem occsFrom_cons_ne (i : Nat) (t term : String) (rest : List String)
    (h : ¬t = term) :
    occsFrom i (t :: rest) term = occsFrom (i + 1) rest term := by
  simp [occsFrom, h]

theorem indexTokensFrom_get (d : Nat) (toks : List String) :
    ∀ (i : Nat) (vocab : List (String × List (DocKey × List Nat))) (term : String),
      alistGet (indexTokensFrom d i toks vocab) term =
        if occsFrom i toks term = [] then alistGet vocab term
        else some (alistUpdate ((alistGet vocab term).getD []) (Sum.inl d)
          (fun ps => ps ++ occsFrom i toks term) []) := by
  induction toks with
  | nil =>
    intro i vocab term
    simp [indexTokensFrom, occsFrom]
  | cons t rest ih =>
    intro i vocab term
    show alistGet (indexTokensFrom d (i + 1) rest (addPosting vocab t d i)) term = _
    by_cases ht : t = term
    · subst ht
      have hocc : occsFrom i (t :: rest) t = i :: occsFrom (i + 1) rest t := by
        simp [occsFrom]
      have hget : alistGet (addPosting vocab t d i) t =
          some (alistUpdate ((alistGet vocab t).getD []) (Sum.inl d)
            (fun ps => ps ++ [i]) []) := by
        unfold addPosting
        rw [alistGet_update_self]
      rw [ih (i + 1) (addPosting vocab t d i) t, hocc]
      by_cases ho : occsFrom (i + 1) rest t = []
      · rw [if_pos ho, hget, ho]
        simp
      · rw [if_neg ho, if_neg (by simp), hget]
        simp only [Option.getD_some]
        rw [alistUpdate_update]
        have hfun : (fun x : List Nat => (x ++ [i]) ++ occsFrom (i + 1) rest t) =
            (fun ps : List Nat => ps ++ i :: occsFrom (i + 1) rest t) := by
          funext ps
          simp
        rw [hfun]
    · have ht' : term ≠ t := fun h => ht h.symm
      have hocc : occsFrom i (t :: rest) term = occsFrom (i + 1) rest term := by
        simp [occsFrom, ht]
      have hget : alistGet (addPosting vocab t d i) term = alistGet vocab term := by
        unfold addPosting
        exact alistGet_update_other _ _ _ _ _ ht'
      rw [ih (i + 1) _ term, hocc, hget]

theorem buildVocabFrom_get (lc rd rp : Bool) (lang : String) (us : Bool)
    (docs : List String) :
    ∀ (i : Nat) (vocab : List (String × List (DocKey × List Nat))) (term : String),
      (∀ pm, alistGet vocab term = some pm →
        ∀ k ∈ pm.map Prod.fst, ∃ d', k = Sum.inl d' ∧ d' < i) →
      alistGet (buildVocabFrom lc rd rp lang us i docs vocab) term =
        match alistGet vocab term with
        | none =>
          if docOccsFrom lc rd rp lang us i docs term = [] then none
          else some (docOccsFrom lc rd rp lang us i docs term)
        | some pm => some (pm ++ docOccsFrom lc rd rp lang us i docs term) := by
  induction docs with
  | nil =>
    intro i vocab term _
    cases hv : alistGet vocab term <;> simp [buildVocabFrom, docOccsFrom, hv]
  | cons text rest ih =>
    intro i vocab term hinv
    show alistGet (buildVocabFrom lc rd rp lang us (i + 1) rest
        (indexTokensFrom i 0 (tokenize text lc rd rp lang us) vocab)) term = _
    have hv'get := indexTokensFrom_get i (tokenize text lc rd rp lang us) 0 vocab term
    by_cases hoe : occsFrom 0 (tokenize text lc rd rp lang us) term = []
    · rw [if_pos hoe] at hv'get
      have hdoc : docOccsFrom lc rd rp lang us i (text :: rest) term =
          docOccsFrom lc rd rp lang us (i + 1) rest term := by
        simp only [docOccsFrom]
        rw [if_pos hoe]
      have hinv' : ∀ pm,
          alistGet (indexTokensFrom i 0 (tokenize text lc rd rp lang us) vocab) term =
            some pm →
          ∀ k ∈ pm.map Prod.fst, ∃ d', k = Sum.inl d' ∧ d' < i + 1 := by
        intro pm hpm k hk
        rw [hv'get] at hpm
        obtain ⟨d', hd', hlt⟩ := hinv pm hpm k hk
        exact ⟨d', hd', by omega⟩
      rw [ih (i + 1) _ term hinv', hv'get, hdoc]
    · have hdoc : docOccsFrom lc rd rp lang us i (text :: rest) term =
          (Sum.inl i, occsFrom 0 (tokenize text lc rd rp lang us) term) ::
            docOccsFrom lc rd rp lang us (i + 1) rest term := by
        simp only [docOccsFrom]
        rw [if_neg hoe]
      rw [if_neg hoe] at hv'get
      cases hvt : alistGet vocab term with
      | none =>
        rw [hvt] at hv'get
        simp only [Option.getD_none] at hv'get
        have hv'' : alistGet (indexTokensFrom i 0 (tokenize text lc rd rp lang us) vocab)
            term = some [(Sum.inl i, occsFrom 0 (tokenize text lc rd rp lang us) term)] := by
          rw [hv'get]
          simp [alistUpdate]
        have hinv' : ∀ pm,
            alistGet (indexTokensFrom i 0 (tokenize text lc rd rp lang us) vocab) term =
              some pm →
            ∀ k ∈ pm.map Prod.fst, ∃ d', k = Sum.inl d' ∧ d' < i + 1 := by
          intro pm hpm k hk
          rw [hv''] at hpm
          obtain rfl := Option.some_inj.mp hpm.symm
          simp only [List.map_cons, List.map_nil, List.mem_singleton] at hk
          exact ⟨i, hk, by omega⟩
        rw [ih (i + 1) _ term hinv', hv'', hdoc]
        simp
      | some pm =>
        rw [hvt] at hv'get
        simp only [Option.getD_some] at hv'get
        have hfresh : ∀ p ∈ pm, p.1 ≠ Sum.inl i := by
          intro p hp hcon
          obtain ⟨d', hd', hlt⟩ :=
            hinv pm hvt p.1 (List.mem_map_of_mem Prod.fst hp)
          rw [hcon] at hd'
          injection hd' with h'
          omega
        have hv'' : alistGet (indexTokensFrom i 0 (tokenize text lc rd rp lang us) vocab)
            term = some (pm ++
              [(Sum.inl i, occsFrom 0 (tokenize text lc rd rp lang us) term)]) := by
          rw [hv'get, alistUpdate_append pm (Sum.inl i) _ [] hfresh]
          simp
        have hinv' : ∀ pm',
            alistGet (indexTokensFrom i 0 (tokenize text lc rd rp lang us) vocab) term =
              some pm' →
            ∀ k ∈ pm'.map Prod.fst, ∃ d', k = Sum.inl d' ∧ d' < i + 1 := by
          intro pm' hpm' k hk
          rw [hv''] at hpm'
          obtain rfl := Option.some_inj.mp hpm'.symm
          simp only [List.map_append, List.map_cons, List.map_nil,
            List.mem_append, List.mem_singleton] at hk
          rcases hk with hk | hk
          · obtain ⟨d', hd', hlt⟩ := hinv pm hvt k hk
            exact ⟨d', hd', by omega⟩
          · exact ⟨i, hk, by omega⟩
        rw [ih (i + 1) _ term hinv', hv'', hdoc]
        simp

theorem build_get (docs : List String) (lc rd rp : Bool) (lang : String)
    (us : Bool) (term : String) :
    idxGet (build_inverted_index docs lc rd rp lang us) term =
      if docOccsFrom lc rd rp lang us 0 docs term = [] then none
      else some { df := (docOccsFrom lc rd rp lang us 0 docs term).length,
                  postings := docOccsFrom lc rd rp lang us 0 docs term } := by
  show alistGet ((buildVocabFrom lc rd rp lang us 0 docs []).map
      (fun te => (te.1, ({ df := te.2.length, postings := te.2 } : TermEntry)))) term = _
  rw [alistGet_finalize]
  rw [buildVocabFrom_get lc rd rp lang us docs 0 [] term
    (by intro pm h; simp [alistGet] at h)]
  show Option.map _ (if docOccsFrom lc rd rp lang us 0 docs term = [] then none
    else some (docOccsFrom lc rd rp lang us 0 docs term)) = _
  by_cases h : docOccsFrom lc rd rp lang us 0 docs term = [] <;> simp [h]

theorem occsFrom_nil_iff (toks : List String) (term : String) :
    ∀ i, (occsFrom i toks term = [] ↔ term ∉ toks) := by
  induction toks with
  | nil => intro i; simp [occsFrom]
  | cons t rest ih =>
    intro i
    by_cases ht : t = term
    · subst ht
      simp [occsFrom]
    · have ht' : term ≠ t := fun h => ht h.symm
      simp [occsFrom, ht, ih (i + 1), ht']

theorem occsFrom_ge (toks : List String) (term : String) :
    ∀ i x, x ∈ occsFrom i toks term → i ≤ x := by
  induction toks with
  | nil => intro i x h; simp [occsFrom] at h
  | cons t rest ih =>
    intro i x h
    by_cases ht : t = term
    · subst ht
      rw [occsFrom_cons_self, List.mem_cons] at h
      rcases h with rfl | h
      · exact Nat.le_refl x
      · exact Nat.le_of_succ_le (ih (i + 1) x h)
    · rw [occsFrom_cons_ne i t term rest ht] at h
      exact Nat.le_of_succ_le (ih (i + 1) x h)

theorem occsFrom_chain (toks : List String) (term : String) :
    ∀ i, List.Chain' (fun a b => a < b) (occsFrom i toks term) := by
  induction toks with
  | nil => intro i; simp [occsFrom]
  | cons t rest ih =>
    intro i
    by_cases ht : t = term
    · subst ht
      rw [occsFrom_cons_self, List.chain'_cons']
      refine ⟨?_, ih (i + 1)⟩
      intro y hy
      have hmem : y ∈ occsFrom (i + 1) rest t := List.mem_of_mem_head? hy
      have := occsFrom_ge rest t (i + 1) y hmem
      omega
    · rw [occsFrom_cons_ne i t term rest ht]
      exact ih (i + 1)

theorem docOccsFrom_mem (lc rd rp : Bool) (lang : String) (us : Bool)
    (docs : List String) (term : String) :
    ∀ i k pl, (k, pl) ∈ docOccsFrom lc rd rp lang us i docs term →
      (∃ d', k = Sum.inl d' ∧ i ≤ d') ∧ pl ≠ [] ∧
        List.Chain' (fun a b => a < b) pl := by
  induction docs with
  | nil => intro i k pl h; simp [docOccsFrom] at h
  | cons text rest ih =>
    intro i k pl h
    simp only [docOccsFrom] at h
    by_cases hoe : occsFrom 0 (tokenize text lc rd rp lang us) term = []
    · rw [if_pos hoe] at h
      obtain ⟨⟨d', hd', hge⟩, hrest⟩ := ih (i + 1) k pl h
      exact ⟨⟨d', hd', by omega⟩, hrest⟩
    · rw [if_neg hoe] at h
      rcases List.mem_cons.mp h with heq | h'
      · injection heq with hk hpl
        refine ⟨⟨i, hk, Nat.le_refl i⟩, ?_, ?_⟩
        · rw [hpl]
          exact hoe
        · rw [hpl]
          exact occsFrom_chain _ term 0
      · obtain ⟨⟨d', hd', hge⟩, hrest⟩ := ih (i + 1) k pl h'
        exact ⟨⟨d', hd', by omega⟩, hrest⟩

theorem docOccsFrom_keys_nodup (lc rd rp : Bool) (lang : String) (us : Bool)
    (docs : List String) (term : String) :
    ∀ i, ((docOccsFrom lc rd rp lang us i docs term).map Prod.fst).Nodup := by
  induction docs with
  | nil => intro i; simp [docOccsFrom]
  | cons text rest ih =>
    intro i
    simp only [docOccsFrom]
    by_cases hoe : occsFrom 0 (tokenize text lc rd rp lang us) term = []
    · rw [if_pos hoe]
      exact ih (i + 1)
    · rw [if_neg hoe]
      simp only [List.map_cons, List.nodup_cons]
      refine ⟨?_, ih (i + 1)⟩
      intro hmem
      obtain ⟨⟨k, pl⟩, hkpl, hfst⟩ := List.mem_map.mp hmem
      obtain ⟨⟨d', hd', hge⟩, _, _⟩ :=
        docOccsFrom_mem lc rd rp lang us rest term (i + 1) k pl hkpl
      rw [hd'] at hfst
      have : d' = i := by injection hfst
      omega

theorem docOccsFrom_nil_iff (lc rd rp : Bool) (lang : String) (us : Bool)
    (docs : List String) (term : String) :
    ∀ i, (docOccsFrom lc rd rp lang us i docs term = [] ↔
      ∀ text ∈ docs, term ∉ tokenize text lc rd rp lang us) := by
  induction docs with
  | nil => intro i; simp [docOccsFrom]
  | cons text rest ih =>
    intro i
    simp only [docOccsFrom]
    by_cases hoe : occsFrom 0 (tokenize text lc rd rp lang us) term = []
    · rw [if_pos hoe]
      have hmem : term ∉ tokenize text lc rd rp lang us :=
        (occsFrom_nil_iff _ term 0).mp hoe
      simp [ih (i + 1), hmem]
    · rw [if_neg hoe]
      have hmem : term ∈ tokenize text lc rd rp lang us := by
        by_contra hcon
        exact hoe ((occsFrom_nil_iff _ term 0).mpr hcon)
      simp [hmem]

/-- C6: in every built index a term is a key iff it occurs in some
normalized document, every posting list is nonempty and strictly
increasing, postings keys are distinct, and the stored `df` is the
number of distinct document ids of the term's postings map. -/
theorem claimC6_theorem (docs : List String) (lc rd rp : Bool)
    (lang : String) (us : Bool) (term : String) :
    ((idxGet (build_inverted_index docs lc rd rp lang us) term).isSome = true ↔
      ∃ text ∈ docs, term ∈ tokenize text lc rd rp lang us) ∧
    ∀ e, idxGet (build_inverted_index docs lc rd rp lang us) term = some e →
      (∀ k pl, (k, pl) ∈ e.postings →
        pl ≠ [] ∧ List.Chain' (fun a b => a < b) pl) ∧
      (e.postings.map Prod.fst).Nodup ∧
      e.df = (e.postings.map Prod.fst).toFinset.card := by
  rw [build_get]
  constructor
  · by_cases h : docOccsFrom lc rd rp lang us 0 docs term = []
    · rw [if_pos h]
      rw [docOccsFrom_nil_iff lc rd rp lang us docs term 0] at h
      simp only [Option.isSome_none, Bool.false_eq_true, false_iff]
      intro ⟨text, htext, hmem⟩
      exact h text htext hmem
    · rw [if_neg h]
      simp only [Option.isSome_some, true_iff]
      by_contra hcon
      push_neg at hcon
      exact h ((docOccsFrom_nil_iff lc rd rp lang us docs term 0).mpr hcon)
  · intro e he
    by_cases h : docOccsFrom lc rd rp lang us 0 docs term = []
    · rw [if_pos h] at he
      exact absurd he (by simp)
    · rw [if_neg h] at he
      obtain rfl := Option.some_inj.mp he.symm
      refine ⟨?_, docOccsFrom_keys_nodup lc rd rp lang us docs term 0, ?_⟩
      · intro k pl hkpl
        exact (docOccsFrom_mem lc rd rp lang us docs term 0 k pl hkpl).2
      · show (docOccsFrom lc rd rp lang us 0 docs term).length = _
        rw [List.toFinset_card_of_nodup
          (docOccsFrom_keys_nodup lc rd rp lang us docs term 0)]
        rw [List.length_map]

/-! # Lemmas: JSON snapshot round trip -/

theorem parsePositions_dumps (pl : List Nat) :
    parsePositions (pl.map JsonVal.num) = some pl := by
  induction pl with
  | nil => rfl
  | cons n rest ih => simp [parsePositions, ih]

theorem parsePostings_dumps (ps : List (DocKey × List Nat)) :
    parsePostings (ps.map (fun pp =>
        (jsonKeyStr pp.1, JsonVal.arr (pp.2.map JsonVal.num)))) =
      some (ps.map (fun pp => ((Sum.inr (jsonKeyStr pp.1) : DocKey), pp.2))) := by
  induction ps with
  | nil => rfl
  | cons p rest ih =>
    obtain ⟨k, pl⟩ := p
    simp [parsePostings, parsePositions_dumps, ih]

theorem parseTerms_dumps (l : List (String × TermEntry)) :
    parseTerms (l.map (fun te =>
        (te.1, JsonVal.obj [("df", JsonVal.num te.2.df),
          ("postings", JsonVal.obj (te.2.postings.map (fun pp =>
            (jsonKeyStr pp.1, JsonVal.arr (pp.2.map JsonVal.num)))))]))) =
      some (l.map (fun te => (te.1, stringifyEntry te.2))) := by
  induction l with
  | nil => rfl
  | cons te rest ih =>
    simp [parseTerms, parseEntry, parsePostings_dumps, ih, stringifyEntry]

theorem loads_dumps (idx : InvIndex) :
    loadsIndex (dumpsIndex idx) = some (stringifyKeys idx) := by
  simp [loadsIndex, dumpsIndex, parseTerms_dumps, stringifyKeys]

theorem idxGet_stringify (idx : InvIndex) (term : String) :
    idxGet (stringifyKeys idx) term =
      (idxGet idx term).map stringifyEntry := by
  obtain ⟨l, nd⟩ := idx
  show alistGet (l.map (fun te => (te.1, stringifyEntry te.2))) term =
    (alistGet l term).map stringifyEntry
  induction l with
  | nil => rfl
  | cons p rest ih =>
    obtain ⟨a, b⟩ := p
    by_cases hk : term = a <;> simp [alistGet, hk, ih]

theorem vocabulary_stats_stringify (idx : InvIndex) :
    vocabulary_stats (stringifyKeys idx) = vocabulary_stats idx := by
  show stableSort rowLE ((idx.index.map (fun te => (te.1, stringifyEntry te.2))).map
      (fun te => (te.1, te.2.df, (te.2.postings.map (fun p => p.2.length)).sum))) =
    stableSort rowLE (idx.index.map
      (fun te => (te.1, te.2.df, (te.2.postings.map (fun p => p.2.length)).sum)))
  rw [List.map_map]
  congr 1
  apply List.map_congr_left
  intro te _
  simp [stringifyEntry, Function.comp_def, List.map_map]

theorem stringify_idem (idx : InvIndex) :
    stringifyKeys (stringifyKeys idx) = stringifyKeys idx := by
  unfold stringifyKeys
  simp [List.map_map, Function.comp, stringifyEntry, jsonKeyStr]

/-- C2 (counterexample): on the one-document corpus `["cat"]`, the JSON
round trip does not reproduce the built index: the postings key of
`"cat"` changes from the integer `0` to the string `"0"`, and the
loaded index answers `NOT cat` differently from the built one. -/
theorem claimC2_counterexample :
    loadsIndex (dumpsIndex tinyIndex) ≠ some tinyIndex ∧
    loadsIndex (dumpsIndex tinyIndex) = some (stringifyKeys tinyIndex) ∧
    boolean_search "NOT cat" tinyIndex = some (∅ : Finset DocKey) ∧
    boolean_search "NOT cat" (stringifyKeys tinyIndex) =
      some ({Sum.inl 0} : Finset DocKey) := by
  refine ⟨by decide, by decide, by decide, by decide⟩

/-- C2 (amended): the round trip reproduces the built index up to the
JSON stringification of its postings keys: `num_docs`, every term,
its `df`, and its position lists are preserved (so the `(term, df, cf)`
statistics agree), and a second round trip is the identity; but the
document-id keys come back as decimal strings, not as the built
integers. -/
theorem claimC2_theorem (docs : List String) (lc rd rp : Bool)
    (lang : String) (us : Bool) :
    loadsIndex (dumpsIndex (build_inverted_index docs lc rd rp lang us)) =
      some (stringifyKeys (build_inverted_index docs lc rd rp lang us)) ∧
    (stringifyKeys (build_inverted_index docs lc rd rp lang us)).num_docs =
      (build_inverted_index docs lc rd rp lang us).num_docs ∧
    (∀ term, idxGet (stringifyKeys (build_inverted_index docs lc rd rp lang us)) term =
      (idxGet (build_inverted_index docs lc rd rp lang us) term).map stringifyEntry) ∧
    vocabulary_stats (stringifyKeys (build_inverted_index docs lc rd rp lang us)) =
      vocabulary_stats (build_inverted_index docs lc rd rp lang us) ∧
    loadsIndex (dumpsIndex (stringifyKeys (build_inverted_index docs lc rd rp lang us))) =
      some (stringifyKeys (build_inverted_index docs lc rd rp lang us)) := by
  refine ⟨loads_dumps _, rfl, fun term => idxGet_stringify _ term,
    vocabulary_stats_stringify _, ?_⟩
  rw [loads_dumps, stringify_idem]

/-! # Claims C3, C8, C10 -/

/-- C3 (counterexample): with stopword filtering off, the expected
postings of Scenario A do not match the built index: `"cat"` sits at
position 1 of document 0 (after the unremoved `"the"`), not position
0, and `"sat"` sits at position 2 of documents 0 and 1, not 1. -/
theorem claimC3_counterexample :
    idxGet sampleIndex "cat" ≠
      some { df := 2, postings := [(Sum.inl 0, [0]), (Sum.inl 2, [0])] } ∧
    idxGet sampleIndex "sat" ≠
      some { df := 2, postings := [(Sum.inl 0, [1]), (Sum.inl 1, [1])] } := by
  refine ⟨by decide, by decide⟩

/-- C3 (amended): on Scenario A with punctuation removal on and
stopword filtering off, `"cat"` has `df = 2` with postings
`{0: [1], 2: [0]}` and `"sat"` has `df = 2` with postings
`{0: [2], 1: [2]}`. -/
theorem claimC3_theorem :
    idxGet sampleIndex "cat" =
      some { df := 2, postings := [(Sum.inl 0, [1]), (Sum.inl 2, [0])] } ∧
    idxGet sampleIndex "sat" =
      some { df := 2, postings := [(Sum.inl 0, [2]), (Sum.inl 1, [2])] } := by
  refine ⟨by decide, by decide⟩

theorem ifEmpty_pySplit (l : List Char) :
    (if l.isEmpty then ([] : List String) else (pySplit l).map String.mk) =
      (pySplit l).map String.mk := by
  cases l with
  | nil => rfl
  | cons c cs => rfl

/-- C8 (counterexample): the reference pipeline with ASCII digit
stripping disagrees with `tokenize` on the Arabic-Indic digit `٣`
(U+0663): Python's `\d` removes it, an ASCII digit class does not. -/
theorem claimC8_counterexample :
    tokenize "a٣" true true false "id" false = ["a"] ∧
    tokenizeSpecWith isAsciiDigit "a٣" true true false "id" false = ["a٣"] ∧
    tokenize "a٣" true true false "id" false ≠
      tokenizeSpecWith isAsciiDigit "a٣" true true false "id" false := by
  refine ⟨by decide, by decide, by decide⟩

/-- C8 (amended): with digit stripping taken over Unicode decimal
digits (the class Python's `\d` actually matches) instead of ASCII
digits only, `tokenize` coincides with the specification pipeline on
every input and every option combination. -/
theorem claimC8_theorem (text : String) (lc rd rp : Bool) (lang : String)
    (us : Bool) :
    tokenize text lc rd rp lang us =
      tokenizeSpecWith isPyDigit text lc rd rp lang us := by
  unfold tokenize tokenizeSpecWith
  simp only [ifEmpty_pySplit]

/-- C10: any language value other than exactly `"id"` makes stopword
filtering use the built-in English set, and behaves exactly like
`"en"`. -/
theorem claimC10_theorem (text : String) (lc rd rp : Bool) (lang : String)
    (h : lang ≠ "id") :
    tokenize text lc rd rp lang true =
      (tokenize text lc rd rp lang false).filter
        (fun tk => !(decide (tk ∈ STOPWORDS_EN))) ∧
    tokenize text lc rd rp lang true = tokenize text lc rd rp "en" true := by
  unfold tokenize
  simp [h]

/-! # Witnesses -/

theorem claimC4_witness :
    boolean_search (joinTokens ["cat", "OR", "dog", "AND", "NOT", "sat"])
        sampleIndex =
      some (term_docs sampleIndex "cat" ∪
        (term_docs sampleIndex "dog" ∩
          (pyUniverse sampleIndex.num_docs \ term_docs sampleIndex "sat"))) :=
  claimC4_theorem sampleIndex "cat" "dog" "sat" (by decide) (by decide)
    (by decide)

theorem claimC5_witness :
    boolean_search "cat" sampleIndex = some (term_docs sampleIndex "cat") ∧
    boolean_search "dog" sampleIndex = some (term_docs sampleIndex "dog") ∧
    boolean_search (joinTokens ["cat", "AND", "dog"]) sampleIndex =
      some (term_docs sampleIndex "cat" ∩ term_docs sampleIndex "dog") ∧
    boolean_search (joinTokens ["cat", "OR", "dog"]) sampleIndex =
      some (term_docs sampleIndex "cat" ∪ term_docs sampleIndex "dog") ∧
    boolean_search (joinTokens ["NOT", "cat"]) sampleIndex =
      some (pyUniverse sampleIndex.num_docs \ term_docs sampleIndex "cat") :=
  claimC5_theorem sampleIndex "cat" "dog" (by decide) (by decide) (by decide)
    (by decide)

theorem claimC6_witness :
    (idxGet (build_inverted_index sampleDocs true false true "id" false)
      "cat").isSome = true :=
  (claimC6_theorem sampleDocs true false true "id" false "cat").1.mpr
    ⟨"the cat sat", by decide, by decide⟩

theorem claimC7_witness :
    phrase_search (joinTokens ["cat", "sat"]) sampleIndex ⊆
      ({Sum.inl 0} : Finset DocKey) :=
  claimC7_theorem sampleIndex ["cat", "sat"] {Sum.inl 0} (by decide)
    (by decide) (by decide)

theorem claimC9_witness :
    boolean_search (joinTokens ["cat", "dog"]) sampleIndex =
      some (term_docs sampleIndex "dog") :=
  claimC9_theorem sampleIndex ["cat"] "dog" (by decide) (by decide)

theorem claimC10_witness :
    tokenize "the cat" true false true "xx" true =
      (tokenize "the cat" true false true "xx" false).filter
        (fun tk => !(decide (tk ∈ STOPWORDS_EN))) ∧
    tokenize "the cat" true false true "xx" true =
      tokenize "the cat" true false true "en" true :=
  claimC10_theorem "the cat" true false true "xx" (by decide)
